import Mathlib

/-
Verification of the github-to-omnifocus reconciliation engine.

The embedding covers:
 - the `Task` type of internal/omnifocus (Key, GetTags),
 - the `GitHubItem` type of the gh package (Key, GetTags),
 - the generic `Delta` function of the delta package (the variant that
   receives an ignore-tag list and compares normalized tag sequences),
 - the `toSet` keyed-collection builder of cmd/github2omnifocus/main.go.

Go maps with string keys are modelled as association lists
`List (String × α)`; `for k, v := range m` is iteration over the list, and
`m[k]` is `List.lookup k`.  Go `strings.ToLower` is modelled by lower-casing
every character, `slices.Sorted` for strings by an insertion sort under the
lexicographic order on the character data, which for valid strings agrees
with Go's byte-wise comparison.
-/

namespace G2O

/-- Model of Go `strings.ToLower`: lower-case every character of the string. -/
def lowerStr (s : String) : String := ⟨s.data.map Char.toLower⟩

/-- The string order Go's `slices.Sorted` uses (`cmp.Compare`, byte-wise
lexicographic), expressed on the character data. -/
def strLE : String → String → Prop := fun a b => a.data ≤ b.data

instance : DecidableRel strLE := fun a b => inferInstanceAs (Decidable (a.data ≤ b.data))

instance : IsTotal String strLE := ⟨fun a b => le_total a.data b.data⟩

instance : IsTrans String strLE := ⟨fun _ _ _ h1 h2 => le_trans h1 h2⟩

instance : IsAntisymm String strLE :=
  ⟨fun a b h1 h2 => by
    cases a; cases b
    exact congrArg String.mk (le_antisymm h1 h2)⟩

/-- Model of Go `slices.Sorted` over a sequence of strings. -/
def sortStrings (l : List String) : List String := List.insertionSort strLE l

/-- `Task` from internal/omnifocus: a task existing in Omnifocus. -/
structure Task where
  ID : String
  Name : String
  Completed : Bool
  Tags : List String
  deriving DecidableEq

/-- `Task.Key`, Go `strings.SplitN(t.Name, " ", 2)[0]`: the prefix of the
name up to (excluding) the first space, the whole name when no space
occurs. -/
def Task.Key (t : Task) : String := ⟨t.Name.data.takeWhile (fun c => c ≠ ' ')⟩

/-- `Task.GetTags`, Go `slices.Values(t.Tags)`. -/
def Task.GetTags (t : Task) : List String := t.Tags

/-- `GitHubItem` from the gh package: unified remote item. -/
structure GitHubItem where
  Title : String
  HTMLURL : String
  APIURL : String
  K : String
  Labels : List String
  Repo : String
  ID : String
  Milestone : String
  deriving DecidableEq

/-- `GitHubItem.Key`: returns the `K` field. -/
def GitHubItem.Key (i : GitHubItem) : String := i.K

/-- `GitHubItem.GetTags`, Go:
`append(item.Labels, item.Repo, fmt.Sprintf("milestone: %s", item.Milestone))`
when `Milestone` is non-empty, `append(item.Labels, item.Repo)` otherwise. -/
def GitHubItem.GetTags (i : GitHubItem) : List String :=
  if i.Milestone ≠ "" then i.Labels ++ [i.Repo, "milestone: " ++ i.Milestone]
  else i.Labels ++ [i.Repo]

/-- The `Keyed` interface of the delta package. -/
class Keyed (α : Type) where
  Key : α → String
  GetTags : α → List String

instance : Keyed Task := ⟨Task.Key, Task.GetTags⟩

instance : Keyed GitHubItem := ⟨GitHubItem.Key, GitHubItem.GetTags⟩

/-- A delta `Operation`; Go stores a `Keyed` payload plus an `OperationType`
tag, and only ever pairs `Add` with a desired item and `Remove` with a
current task, so the sum is represented with two typed constructors. -/
inductive Operation (D C : Type) where
  | add (item : D)
  | remove (task : C)
  deriving DecidableEq

/-- Go `toLower([]string)` from the delta package. -/
def toLowerList (s : List String) : List String := s.map lowerStr

/-- The desired-side normalized tag sequence `vTags` computed inside `Delta`:
`slices.Sorted(lower(v.GetTags()))`. -/
def normDesired {D : Type} [Keyed D] (v : D) : List String :=
  sortStrings ((Keyed.GetTags v).map lowerStr)

/-- The current-side normalized tag sequence `cTags` computed inside `Delta`:
`slices.Sorted(deleteFunc(lower(c.GetTags()), s -> slices.Contains(ig, s)))`,
where `ig` is the already-lower-cased ignore list. -/
def normCurrent {C : Type} [Keyed C] (c : C) (ig : List String) : List String :=
  sortStrings (((Keyed.GetTags c).map lowerStr).filter (fun s => !(ig.contains s)))

/-- The body of `Delta`'s first loop (`for k, v := range desired`): an `Add`
when the key is absent from `current`, otherwise a `Remove`-then-`Add` pair
exactly when the normalized tag sequences `vTags` and `cTags` differ.  `ig`
is the already-lower-cased ignore list. -/
def desPass {D C : Type} [Keyed D] [Keyed C] (current : List (String × C))
    (ig : List String) (p : String × D) : List (Operation D C) :=
  match List.lookup p.1 current with
  | none => [Operation.add p.2]
  | some c =>
    if normDesired p.2 = normCurrent c ig then []
    else [Operation.remove c, Operation.add p.2]

/-- The body of `Delta`'s second loop (`for k, v := range current`): a
`Remove` when the key is absent from `desired`. -/
def curPass {D C : Type} [Keyed D] [Keyed C] (desired : List (String × D))
    (p : String × C) : List (Operation D C) :=
  match List.lookup p.1 desired with
  | some _ => []
  | none => [Operation.remove p.2]

/-- The `Delta` function of the delta package (generic variant with
`ignoreTags`): lower-case the ignore list once, run the pass over `desired`,
then the pass over `current`, concatenating the emitted operations. -/
def Delta {D C : Type} [Keyed D] [Keyed C] (desired : List (String × D))
    (current : List (String × C)) (ignoreTags : List String) : List (Operation D C) :=
  desired.flatMap (desPass current (toLowerList ignoreTags)) ++
    current.flatMap (curPass desired)

/-- Insertion into the association-list model of a Go map:
`m[k] = v` replaces any entry stored under `k`. -/
def mapInsert {α : Type} (k : String) (v : α) (m : List (String × α)) :
    List (String × α) :=
  (k, v) :: m.filter (fun p => p.1 != k)

/-- Deletion from the association-list model of a Go map. -/
def mapErase {α : Type} (k : String) (m : List (String × α)) : List (String × α) :=
  m.filter (fun p => p.1 != k)

/-- `toSet` from cmd/github2omnifocus/main.go: fold the input sequence into a
map keyed on each element's `Key()`, later elements overwriting earlier. -/
def toSet {α : Type} [Keyed α] (l : List α) : List (String × α) :=
  l.foldl (fun r e => mapInsert (Keyed.Key e) e r) []

/-- Applying one emitted operation to the map model of the local state:
`Add` inserts the item under the item's key, `Remove` deletes the task's
key.  An entry is a desired item (inserted by an `Add`) or one of the
original current tasks. -/
def applyOp {D C : Type} [Keyed D] [Keyed C] (m : List (String × (D ⊕ C))) :
    Operation D C → List (String × (D ⊕ C))
  | Operation.add v => mapInsert (Keyed.Key v) (Sum.inl v) m
  | Operation.remove c => mapErase (Keyed.Key c) m

/-- Applying a whole operation list, in emission order. -/
def applyOps {D C : Type} [Keyed D] [Keyed C] (ops : List (Operation D C))
    (m : List (String × (D ⊕ C))) : List (String × (D ⊕ C)) :=
  ops.foldl applyOp m

/-- The current collection viewed as the initial state of `applyOps`. -/
def currentInit {D C : Type} (current : List (String × C)) :
    List (String × (D ⊕ C)) :=
  current.map fun p => (p.1, Sum.inr p.2)

/-- The normalized tag sequence of an entry resulting from application:
desired items normalize desired-side, surviving current tasks normalize
current-side (ignore list removed). -/
def normEntry {D C : Type} [Keyed D] [Keyed C] (ig : List String) : D ⊕ C → List String
  | Sum.inl v => normDesired v
  | Sum.inr c => normCurrent c (toLowerList ig)

/-- The key an operation acts on: its payload's key. -/
def opKey {D C : Type} [Keyed D] [Keyed C] : Operation D C → String
  | Operation.add v => Keyed.Key v
  | Operation.remove c => Keyed.Key c

/-- The sub-sequence of operations that touch a given key. -/
def opsForKey {D C : Type} [Keyed D] [Keyed C] (k : String)
    (ops : List (Operation D C)) : List (Operation D C) :=
  ops.filter (fun op => opKey op == k)

/-- Every stated entry key is the stored element's own key (true of any map
built by `toSet`). -/
def KeysConsistent {α : Type} [Keyed α] (l : List (String × α)) : Prop :=
  ∀ p ∈ l, Keyed.Key p.2 = p.1

/-- The entry keys are pairwise distinct (true of any Go map). -/
def NodupKeys {α : Type} (l : List (String × α)) : Prop :=
  (l.map Prod.fst).Nodup

instance {α : Type} [Keyed α] (l : List (String × α)) : Decidable (KeysConsistent l) :=
  inferInstanceAs (Decidable (∀ p ∈ l, Keyed.Key p.2 = p.1))

instance {α : Type} (l : List (String × α)) : Decidable (NodupKeys l) :=
  inferInstanceAs (Decidable (l.map Prod.fst).Nodup)

/-- The effect of one operation on the entry stored under the operation's own
key: an `Add` stores the item, a `Remove` clears the slot. -/
def applyKeyStep {D C : Type} : Option (D ⊕ C) → Operation D C → Option (D ⊕ C)
  | _, Operation.add v => some (Sum.inl v)
  | _, Operation.remove _ => none

/-- Sample remote item for key `a/b#1`, label `Bug` (upper case B), repo
`a/b`, no milestone. -/
def itemBug : GitHubItem := ⟨"fix the bug", "", "", "a/b#1", ["Bug"], "a/b", "", ""⟩

/-- Sample remote item for key `a/b#1` whose only tag is `urgent`. -/
def itemUrgent : GitHubItem := ⟨"urgent one", "", "", "a/b#1", [], "urgent", "", ""⟩

/-- Sample remote item for key `a/b#1` whose only tag is `bug`. -/
def itemBugOnly : GitHubItem := ⟨"only bug", "", "", "a/b#1", [], "bug", "", ""⟩

/-- A second remote item sharing key `a/b#1` with `itemBug`. -/
def itemDup : GitHubItem := ⟨"duplicate", "", "", "a/b#1", [], "x", "", ""⟩

/-- Sample local task for key `a/b#1` with tags `bug` and `a/b`. -/
def taskBug : Task := ⟨"t1", "a/b#1 fix the bug", false, ["bug", "a/b"]⟩

/-- Sample local task for key `a/b#1` whose only tag is `bug`. -/
def taskOnlyBug : Task := ⟨"t1", "a/b#1 fix the bug", false, ["bug"]⟩

/-- Sample local task for key `a/b#1` with tags `bug` and the local
bookkeeping tag `assigned`. -/
def taskBugAssigned : Task := ⟨"t1", "a/b#1 fix the bug", false, ["bug", "assigned"]⟩

/-- Sample local task for key `a/b#2`. -/
def taskExtra : Task := ⟨"t2", "a/b#2 another task", false, ["bug"]⟩

lemma lookup_cons' {α : Type} (k k' : String) (v' : α) (rest : List (String × α)) :
    List.lookup k ((k', v') :: rest) = if k = k' then some v' else List.lookup k rest := by
  rw [List.lookup_cons]
  by_cases hk : k = k'
  · simp [hk]
  · simp [beq_eq_false_iff_ne.mpr hk, hk]

lemma lookup_mem {α : Type} {k : String} {v : α} {l : List (String × α)}
    (h : List.lookup k l = some v) : (k, v) ∈ l := by
  induction l with
  | nil => simp [List.lookup] at h
  | cons p rest ih =>
    obtain ⟨k', v'⟩ := p
    rw [lookup_cons'] at h
    by_cases hk : k = k'
    · subst hk
      rw [if_pos rfl] at h
      injection h with h
      subst h
      exact List.mem_cons_self _ _
    · rw [if_neg hk] at h
      exact List.mem_cons_of_mem _ (ih h)

lemma nodupKeys_cons {α : Type} {k' : String} {v' : α} {rest : List (String × α)}
    (hn : NodupKeys ((k', v') :: rest)) :
    k' ∉ rest.map Prod.fst ∧ NodupKeys rest := by
  unfold NodupKeys at hn
  rw [List.map_cons, List.nodup_cons] at hn
  exact hn

lemma mem_lookup {α : Type} {k : String} {v : α} {l : List (String × α)}
    (hn : NodupKeys l) (h : (k, v) ∈ l) : List.lookup k l = some v := by
  induction l with
  | nil => cases h
  | cons p rest ih =>
    obtain ⟨k', v'⟩ := p
    obtain ⟨hk', hrest⟩ := nodupKeys_cons hn
    rw [lookup_cons']
    rcases List.mem_cons.mp h with heq | hmem
    · injection heq with h1 h2
      subst h1; subst h2
      rw [if_pos rfl]
    · by_cases hk : k = k'
      · exfalso
        subst hk
        exact hk' (List.mem_map.mpr ⟨(k, v), hmem, rfl⟩)
      · rw [if_neg hk]
        exact ih hrest hmem

lemma lookup_isSome_iff {α : Type} (k : String) (l : List (String × α)) :
    (List.lookup k l).isSome = true ↔ ∃ p ∈ l, p.1 = k := by
  constructor
  · intro h
    obtain ⟨v, hv⟩ := Option.isSome_iff_exists.mp h
    exact ⟨(k, v), lookup_mem hv, rfl⟩
  · rintro ⟨p, hp, hpk⟩
    cases hlook : List.lookup k l with
    | some v => rfl
    | none =>
      exfalso
      have := List.lookup_eq_none_iff.mp hlook p hp
      exact (bne_iff_ne.mp this) hpk.symm

lemma lookup_filter_ne {α : Type} {k k' : String} (m : List (String × α)) (h : k ≠ k') :
    List.lookup k (m.filter (fun p => p.1 != k')) = List.lookup k m := by
  induction m with
  | nil => rfl
  | cons p rest ih =>
    obtain ⟨a, b⟩ := p
    by_cases ha : a = k'
    · subst ha
      rw [List.filter_cons, if_neg (by simp), lookup_cons', if_neg h, ih]
    · rw [List.filter_cons, if_pos (by simpa using ha), lookup_cons', lookup_cons']
      by_cases hk : k = a
      · rw [if_pos hk, if_pos hk]
      · rw [if_neg hk, if_neg hk, ih]

lemma lookup_filter_self {α : Type} (k : String) (m : List (String × α)) :
    List.lookup k (m.filter (fun p => p.1 != k)) = none := by
  rw [List.lookup_eq_none_iff]
  intro p hp
  have hne := (List.mem_filter.mp hp).2
  exact bne_iff_ne.mpr fun hc => (bne_iff_ne.mp hne) hc.symm

lemma lookup_mapInsert {α : Type} (k k' : String) (v : α) (m : List (String × α)) :
    List.lookup k (mapInsert k' v m) = if k = k' then some v else List.lookup k m := by
  unfold mapInsert
  rw [lookup_cons']
  by_cases hk : k = k'
  · rw [if_pos hk, if_pos hk]
  · rw [if_neg hk, if_neg hk, lookup_filter_ne m hk]

lemma lookup_mapErase {α : Type} (k k' : String) (m : List (String × α)) :
    List.lookup k (mapErase k' m) = if k = k' then none else List.lookup k m := by
  unfold mapErase
  by_cases hk : k = k'
  · subst hk
    rw [if_pos rfl, lookup_filter_self]
  · rw [if_neg hk, lookup_filter_ne m hk]

lemma flatMap_eq_nil_of_forall {α β : Type} {l : List α} {f : α → List β}
    (h : ∀ x ∈ l, f x = []) : l.flatMap f = [] := by
  induction l with
  | nil => rfl
  | cons x xs ih =>
    rw [List.flatMap_cons, h x (List.mem_cons_self _ _), List.nil_append]
    exact ih fun y hy => h y (List.mem_cons_of_mem _ hy)

lemma flatMap_single_key {β γ : Type} (k : String) (l : List (String × β))
    (F : String × β → List γ) (hn : NodupKeys l)
    (hvan : ∀ x ∈ l, x.1 ≠ k → F x = []) :
    l.flatMap F =
      match List.lookup k l with
      | some v => F (k, v)
      | none => [] := by
  induction l with
  | nil => rfl
  | cons p rest ih =>
    obtain ⟨k', v'⟩ := p
    obtain ⟨hk', hrest⟩ := nodupKeys_cons hn
    rw [List.flatMap_cons, lookup_cons']
    by_cases hk : k = k'
    · subst hk
      rw [if_pos rfl]
      have hnil : rest.flatMap F = [] := by
        apply flatMap_eq_nil_of_forall
        intro x hx
        apply hvan x (List.mem_cons_of_mem _ hx)
        intro hc
        exact hk' (List.mem_map.mpr ⟨x, hx, hc⟩)
      rw [hnil, List.append_nil]
    · rw [if_neg hk, hvan (k', v') (List.mem_cons_self _ _) fun hc => hk hc.symm,
        List.nil_append]
      exact ih hrest fun x hx hxk => hvan x (List.mem_cons_of_mem _ hx) hxk

lemma takeWhile_append_space (a b : List Char) (h : ' ' ∉ a) :
    (a ++ ' ' :: b).takeWhile (fun c => c ≠ ' ') = a := by
  induction a with
  | nil => simp [List.takeWhile_cons]
  | cons x xs ih =>
    have hx : x ≠ ' ' := by intro hc; exact h (hc ▸ List.mem_cons_self x xs)
    have hxs : ' ' ∉ xs := fun hc => h (List.mem_cons_of_mem x hc)
    rw [List.cons_append, List.takeWhile_cons, if_pos (decide_eq_true hx), ih hxs]

lemma takeWhile_of_no_space (l : List Char) (h : ' ' ∉ l) :
    l.takeWhile (fun c => c ≠ ' ') = l := by
  induction l with
  | nil => rfl
  | cons x xs ih =>
    have hx : x ≠ ' ' := by intro hc; exact h (hc ▸ List.mem_cons_self x xs)
    have hxs : ' ' ∉ xs := fun hc => h (List.mem_cons_of_mem x hc)
    rw [List.takeWhile_cons, if_pos (decide_eq_true hx), ih hxs]

lemma opKey_desPass {D C : Type} [Keyed D] [Keyed C] {current : List (String × C)}
    (hc : KeysConsistent current) {ig : List String} {p : String × D}
    (hp : Keyed.Key p.2 = p.1) :
    ∀ op ∈ desPass current ig p, opKey op = p.1 := by
  intro op hop
  unfold desPass at hop
  split at hop
  case h_1 hlook =>
    rcases List.mem_singleton.mp hop with rfl
    exact hp
  case h_2 c hlook =>
    have hck : Keyed.Key c = p.1 := hc (p.1, c) (lookup_mem hlook)
    by_cases heq : normDesired p.2 = normCurrent c ig
    · rw [if_pos heq] at hop
      cases hop
    · rw [if_neg heq] at hop
      rcases List.mem_cons.mp hop with rfl | hop
      · exact hck
      · rcases List.mem_singleton.mp hop with rfl
        exact hp

lemma opKey_curPass {D C : Type} [Keyed D] [Keyed C] {desired : List (String × D)}
    {p : String × C} (hp : Keyed.Key p.2 = p.1) :
    ∀ op ∈ curPass desired p, opKey op = p.1 := by
  intro op hop
  unfold curPass at hop
  split at hop
  case h_1 => cases hop
  case h_2 =>
    rcases List.mem_singleton.mp hop with rfl
    exact hp

/-- The central per-key characterization of `Delta`: the operations touching
a given key are fully determined by how that key is stored in the two
maps and by the normalized tag sequences. -/
lemma opsForKey_delta {D C : Type} [Keyed D] [Keyed C]
    (desired : List (String × D)) (current : List (String × C)) (ig : List String)
    (hd : KeysConsistent desired) (hc : KeysConsistent current)
    (hnd : NodupKeys desired) (hnc : NodupKeys current) (k : String) :
    opsForKey k (Delta desired current ig) =
      match List.lookup k desired, List.lookup k current with
      | some v, some c =>
        if normDesired v = normCurrent c (toLowerList ig) then []
        else [Operation.remove c, Operation.add v]
      | some v, none => [Operation.add v]
      | none, some c => [Operation.remove c]
      | none, none => [] := by
  unfold opsForKey Delta
  rw [List.filter_append, List.filter_flatMap, List.filter_flatMap]
  have h1 : desired.flatMap
      (fun p => (desPass current (toLowerList ig) p).filter fun op => opKey op == k) =
      match List.lookup k desired with
      | some v => (desPass current (toLowerList ig) (k, v)).filter fun op => opKey op == k
      | none => [] := by
    apply flatMap_single_key k desired _ hnd
    intro x hx hxk
    apply List.filter_eq_nil_iff.mpr
    intro op hop
    rw [opKey_desPass hc (hd x hx) op hop]
    simp [hxk]
  have h2 : current.flatMap
      (fun p => (curPass desired p).filter fun op => opKey op == k) =
      match List.lookup k current with
      | some c => (curPass desired (k, c)).filter fun op => opKey op == k
      | none => [] := by
    apply flatMap_single_key k current _ hnc
    intro x hx hxk
    apply List.filter_eq_nil_iff.mpr
    intro op hop
    rw [opKey_curPass (hc x hx) op hop]
    simp [hxk]
  rw [h1, h2]
  cases hld : List.lookup k desired with
  | some v =>
    dsimp only
    have hvmem : (k, v) ∈ desired := lookup_mem hld
    have hfd : (desPass current (toLowerList ig) (k, v)).filter
        (fun op => opKey op == k) = desPass current (toLowerList ig) (k, v) := by
      apply List.filter_eq_self.mpr
      intro op hop
      rw [opKey_desPass hc (hd (k, v) hvmem) op hop]
      exact beq_self_eq_true k
    rw [hfd]
    cases hlc : List.lookup k current with
    | some c =>
      dsimp only
      have hcmem : (k, c) ∈ current := lookup_mem hlc
      have hfc : (curPass desired (k, c)).filter
          (fun op => opKey op == k) = curPass desired (k, c) := by
        apply List.filter_eq_self.mpr
        intro op hop
        rw [opKey_curPass (hc (k, c) hcmem) op hop]
        exact beq_self_eq_true k
      rw [hfc]
      unfold desPass curPass
      rw [hld, hlc]
      simp only [List.append_nil]
    | none =>
      dsimp only
      unfold desPass
      rw [hlc]
      simp only [List.append_nil]
  | none =>
    dsimp only
    cases hlc : List.lookup k current with
    | some c =>
      dsimp only
      have hcmem : (k, c) ∈ current := lookup_mem hlc
      have hfc : (curPass desired (k, c)).filter
          (fun op => opKey op == k) = curPass desired (k, c) := by
        apply List.filter_eq_self.mpr
        intro op hop
        rw [opKey_curPass (hc (k, c) hcmem) op hop]
        exact beq_self_eq_true k
      rw [hfc]
      unfold curPass
      rw [hld]
      simp only [List.nil_append]
    | none => dsimp only; simp only [List.append_nil]

/-- Looking a key up after applying an operation list, in order, is the same
as replaying just the operations that touch that key on the original slot. -/
lemma lookup_applyOps {D C : Type} [Keyed D] [Keyed C] (ops : List (Operation D C)) :
    ∀ (m : List (String × (D ⊕ C))) (k : String),
      List.lookup k (applyOps ops m) =
        (opsForKey k ops).foldl applyKeyStep (List.lookup k m) := by
  induction ops with
  | nil => intro m k; rfl
  | cons op rest ih =>
    intro m k
    unfold applyOps opsForKey at *
    rw [List.foldl_cons, List.filter_cons, ih (applyOp m op) k]
    by_cases hop : (opKey op == k) = true
    · have hkey : opKey op = k := beq_iff_eq.mp hop
      rw [if_pos hop, List.foldl_cons]
      congr 1
      cases op with
      | add v =>
        unfold applyOp applyKeyStep
        rw [lookup_mapInsert, if_pos]
        unfold opKey at hkey
        exact hkey.symm
      | remove c =>
        unfold applyOp applyKeyStep
        rw [lookup_mapErase, if_pos]
        unfold opKey at hkey
        exact hkey.symm
    · have hkey : opKey op ≠ k := by simpa using hop
      rw [if_neg hop]
      congr 1
      cases op with
      | add v =>
        unfold applyOp
        rw [lookup_mapInsert, if_neg]
        unfold opKey at hkey
        exact fun hc => hkey hc.symm
      | remove c =>
        unfold applyOp
        rw [lookup_mapErase, if_neg]
        unfold opKey at hkey
        exact fun hc => hkey hc.symm

lemma lookup_currentInit {D C : Type} (current : List (String × C)) (k : String) :
    List.lookup k (currentInit (D := D) current) = (List.lookup k current).map Sum.inr := by
  induction current with
  | nil => rfl
  | cons p rest ih =>
    obtain ⟨a, b⟩ := p
    unfold currentInit at *
    rw [List.map_cons, lookup_cons', lookup_cons']
    by_cases hk : k = a
    · rw [if_pos hk, if_pos hk, Option.map_some']
    · rw [if_neg hk, if_neg hk, ih]

/-- Sorting is invariant under permutation of the input, so two tag
sequences that are permutations of one another normalize identically. -/
lemma sortStrings_eq_of_perm {l₁ l₂ : List String} (h : l₁.Perm l₂) :
    sortStrings l₁ = sortStrings l₂ := by
  apply List.eq_of_perm_of_sorted (r := strLE)
  · exact ((List.perm_insertionSort _ _).trans h).trans (List.perm_insertionSort _ _).symm
  · exact List.sorted_insertionSort _ _
  · exact List.sorted_insertionSort _ _

lemma flatMap_singleton_eq_map {α β : Type} (l : List α) (f : α → β) :
    (l.flatMap fun x => [f x]) = l.map f := by
  induction l with
  | nil => rfl
  | cons x xs ih => rw [List.flatMap_cons, List.map_cons, List.singleton_append, ih]

lemma toSet_append_single {α : Type} [Keyed α] (l : List α) (x : α) :
    toSet (l ++ [x]) = mapInsert (Keyed.Key x) x (toSet l) := by
  unfold toSet
  rw [List.foldl_append]
  rfl

lemma nodupKeys_mapInsert {α : Type} (k : String) (v : α) (m : List (String × α))
    (h : NodupKeys m) : NodupKeys (mapInsert k v m) := by
  unfold NodupKeys mapInsert at *
  rw [List.map_cons, List.nodup_cons]
  constructor
  · intro hc
    obtain ⟨p, hp, hpk⟩ := List.mem_map.mp hc
    have := (List.mem_filter.mp hp).2
    exact (bne_iff_ne.mp this) hpk
  · exact List.Nodup.sublist (List.Sublist.map Prod.fst (List.filter_sublist m)) h

lemma toSet_nodup {α : Type} [Keyed α] (l : List α) : NodupKeys (toSet l) := by
  induction l using List.reverseRecOn with
  | nil => exact List.nodup_nil
  | append_singleton xs x ih =>
    rw [toSet_append_single]
    exact nodupKeys_mapInsert _ _ _ ih

lemma toSet_lookup {α : Type} [Keyed α] (l : List α) (k : String) :
    List.lookup k (toSet l) = (l.filter fun e => Keyed.Key e == k).getLast? := by
  induction l using List.reverseRecOn with
  | nil => rfl
  | append_singleton xs x ih =>
    rw [toSet_append_single, lookup_mapInsert, List.filter_append]
    by_cases hk : k = Keyed.Key x
    · rw [if_pos hk]
      have hpx : (Keyed.Key x == k) = true := beq_iff_eq.mpr hk.symm
      have hone : List.filter (fun e => Keyed.Key e == k) [x] = [x] := by
        simp [List.filter_cons, hpx]
      rw [hone, List.getLast?_concat]
    · rw [if_neg hk, ih]
      have hpx : (Keyed.Key x == k) = false :=
        beq_eq_false_iff_ne.mpr fun hc => hk hc.symm
      have hnone : List.filter (fun e => Keyed.Key e == k) [x] = [] := by
        simp [List.filter_cons, hpx]
      rw [hnone, List.append_nil]

lemma mem_toSet {α : Type} [Keyed α] {p : String × α} {l : List α}
    (h : p ∈ toSet l) : p.1 = Keyed.Key p.2 ∧ p.2 ∈ l := by
  induction l using List.reverseRecOn with
  | nil => cases h
  | append_singleton xs x ih =>
    rw [toSet_append_single] at h
    unfold mapInsert at h
    rcases List.mem_cons.mp h with rfl | h
    · exact ⟨rfl, List.mem_append.mpr (Or.inr (List.mem_singleton.mpr rfl))⟩
    · obtain ⟨h1, h2⟩ := ih (List.mem_filter.mp h).1
      exact ⟨h1, List.mem_append.mpr (Or.inl h2)⟩

lemma toSet_single_key {α : Type} [Keyed α] (l : List α) (k₀ : String)
    (hne : l ≠ []) (hall : ∀ e ∈ l, Keyed.Key e = k₀) :
    ∃ e, toSet l = [(k₀, e)] := by
  induction l using List.reverseRecOn with
  | nil => cases hne rfl
  | append_singleton xs x ih =>
    rw [toSet_append_single]
    have hkx : Keyed.Key x = k₀ :=
      hall x (List.mem_append.mpr (Or.inr (List.mem_singleton.mpr rfl)))
    unfold mapInsert
    have hfilter : (toSet xs).filter (fun p => p.1 != Keyed.Key x) = [] := by
      apply List.filter_eq_nil_iff.mpr
      intro p hp
      have h1 := (mem_toSet hp).1
      have h2 := hall p.2 (List.mem_append.mpr (Or.inl (mem_toSet hp).2))
      simp [h1, h2, hkx]
    refine ⟨x, ?_⟩
    rw [hfilter, hkx]

/-- C9: `Task.Key` returns the leading whitespace-delimited token of the
task's name — the substring before the first space — and, when the name
contains no space, the whole name unchanged. -/
theorem task_key_leading_token (t : Task) :
    (∀ a b, t.Name.data = a ++ ' ' :: b → ' ' ∉ a → Task.Key t = String.mk a) ∧
    (' ' ∉ t.Name.data → Task.Key t = t.Name) := by
  constructor
  · intro a b hsplit hns
    unfold Task.Key
    rw [hsplit, takeWhile_append_space a b hns]
  · intro hns
    unfold Task.Key
    rw [takeWhile_of_no_space _ hns]

/-- C9 witness: the key of the task named
`"rhyshort/github-to-omnifocus#3 foo bar foo"` (the repository's own unit
test) is `"rhyshort/github-to-omnifocus#3"`. -/
theorem task_key_leading_token_witness :
    Task.Key ⟨"foo", "rhyshort/github-to-omnifocus#3 foo bar foo", false, []⟩ =
      "rhyshort/github-to-omnifocus#3" :=
  (task_key_leading_token ⟨"foo", "rhyshort/github-to-omnifocus#3 foo bar foo", false, []⟩).1
    ("rhyshort/github-to-omnifocus#3").data ("foo bar foo").data (by decide) (by decide)

/-- C10: `GetTags` yields exactly the labels, then the repo name, then —
exactly when the milestone is non-empty — the tag `"milestone: <Milestone>"`;
no lower-casing and no de-duplication happens here. -/
theorem github_item_get_tags (i : GitHubItem) :
    GitHubItem.GetTags i =
      i.Labels ++ [i.Repo] ++
        (if i.Milestone ≠ "" then ["milestone: " ++ i.Milestone] else []) := by
  unfold GitHubItem.GetTags
  split <;> simp

/-- C1: Convergence — applying every operation emitted by `Delta` to
`current`, in emission order (each `Add` inserts its item under the item's
key, each `Remove` deletes its task's key), yields a map whose key set
equals `desired`'s key set and whose per-key normalized tag sequence equals
`desired`'s normalized tag sequence. -/
theorem delta_convergence {D C : Type} [Keyed D] [Keyed C]
    (desired : List (String × D)) (current : List (String × C)) (ig : List String)
    (hd : KeysConsistent desired) (hc : KeysConsistent current)
    (hnd : NodupKeys desired) (hnc : NodupKeys current) (k : String) :
    ((List.lookup k (applyOps (Delta desired current ig) (currentInit current))).isSome
      = (List.lookup k desired).isSome) ∧
    (∀ v, List.lookup k desired = some v →
      ∃ e, List.lookup k (applyOps (Delta desired current ig) (currentInit current))
            = some e ∧
        normEntry ig e = normDesired v) := by
  have happly := lookup_applyOps (Delta desired current ig) (currentInit current) k
  rw [opsForKey_delta desired current ig hd hc hnd hnc k, lookup_currentInit] at happly
  cases hld : List.lookup k desired with
  | some v =>
    rw [hld] at happly
    cases hlc : List.lookup k current with
    | some c =>
      rw [hlc] at happly
      dsimp only at happly
      by_cases heq : normDesired v = normCurrent c (toLowerList ig)
      · rw [if_pos heq] at happly
        simp only [List.foldl_nil, Option.map_some'] at happly
        refine ⟨by rw [happly]; rfl, ?_⟩
        rintro v' hv'
        injection hv' with hv'
        subst hv'
        exact ⟨Sum.inr c, happly, heq.symm⟩
      · rw [if_neg heq] at happly
        simp only [List.foldl_cons, List.foldl_nil, applyKeyStep, Option.map_some'] at happly
        refine ⟨by rw [happly]; rfl, ?_⟩
        rintro v' hv'
        injection hv' with hv'
        subst hv'
        exact ⟨Sum.inl v, happly, rfl⟩
    | none =>
      rw [hlc] at happly
      dsimp only at happly
      simp only [List.foldl_cons, List.foldl_nil, applyKeyStep, Option.map_none'] at happly
      refine ⟨by rw [happly]; rfl, ?_⟩
      rintro v' hv'
      injection hv' with hv'
      subst hv'
      exact ⟨Sum.inl v, happly, rfl⟩
  | none =>
    rw [hld] at happly
    cases hlc : List.lookup k current with
    | some c =>
      rw [hlc] at happly
      dsimp only at happly
      simp only [List.foldl_cons, List.foldl_nil, applyKeyStep, Option.map_some'] at happly
      refine ⟨by rw [happly]; rfl, ?_⟩
      rintro v' hv'
      cases hv'
    | none =>
      rw [hlc] at happly
      dsimp only at happly
      simp only [List.foldl_nil, Option.map_none'] at happly
      refine ⟨by rw [happly]; rfl, ?_⟩
      rintro v' hv'
      cases hv'

/-- C1 witness: converging a one-item desired state against a current state
holding the same key with differing tags plus a stale key. -/
theorem delta_convergence_witness :
    ((List.lookup "a/b#1" (applyOps
        (Delta [("a/b#1", itemBug)] [("a/b#1", taskOnlyBug), ("a/b#2", taskExtra)] [])
        (currentInit [("a/b#1", taskOnlyBug), ("a/b#2", taskExtra)]))).isSome
      = (List.lookup "a/b#1" [("a/b#1", itemBug)]).isSome) ∧
    (∀ v, List.lookup "a/b#1" [("a/b#1", itemBug)] = some v →
      ∃ e, List.lookup "a/b#1" (applyOps
          (Delta [("a/b#1", itemBug)] [("a/b#1", taskOnlyBug), ("a/b#2", taskExtra)] [])
          (currentInit [("a/b#1", taskOnlyBug), ("a/b#2", taskExtra)])) = some e ∧
        normEntry [] e = normDesired v) :=
  delta_convergence [("a/b#1", itemBug)] [("a/b#1", taskOnlyBug), ("a/b#2", taskExtra)] []
    (by decide) (by decide) (by decide) (by decide) "a/b#1"

/-- C2: No spurious operations — when `desired` and `current` have identical
key sets and the normalized tag sequences agree on every shared key (in
particular when tags differ only in letter case, such as desired `Bug`
versus current `bug`), `Delta` returns the empty operation list. -/
theorem delta_no_spurious_ops {D C : Type} [Keyed D] [Keyed C]
    (desired : List (String × D)) (current : List (String × C)) (ig : List String)
    (hkd : ∀ p ∈ desired, ∃ q ∈ current, q.1 = p.1)
    (hkc : ∀ q ∈ current, ∃ p ∈ desired, p.1 = q.1)
    (htags : ∀ p ∈ desired, ∀ q ∈ current, p.1 = q.1 →
      normDesired p.2 = normCurrent q.2 (toLowerList ig)) :
    Delta desired current ig = [] := by
  unfold Delta
  have h1 : desired.flatMap (desPass current (toLowerList ig)) = [] := by
    apply flatMap_eq_nil_of_forall
    intro p hp
    obtain ⟨q, hq, hqk⟩ := hkd p hp
    have hsome : (List.lookup p.1 current).isSome = true :=
      (lookup_isSome_iff _ _).mpr ⟨q, hq, hqk⟩
    obtain ⟨c, hcsome⟩ := Option.isSome_iff_exists.mp hsome
    unfold desPass
    rw [hcsome]
    dsimp only
    rw [if_pos (htags p hp (p.1, c) (lookup_mem hcsome) rfl)]
  have h2 : current.flatMap (curPass desired) = [] := by
    apply flatMap_eq_nil_of_forall
    intro q hq
    obtain ⟨p, hp, hpk⟩ := hkc q hq
    have hsome : (List.lookup q.1 desired).isSome = true :=
      (lookup_isSome_iff _ _).mpr ⟨p, hp, hpk⟩
    obtain ⟨v, hvsome⟩ := Option.isSome_iff_exists.mp hsome
    unfold curPass
    rw [hvsome]
  rw [h1, h2, List.append_nil]

/-- C2 witness: desired tag `Bug` against current tag `bug` (same key) emits
nothing. -/
theorem delta_no_spurious_ops_witness :
    Delta [("a/b#1", itemBug)] [("a/b#1", taskBug)] [] = [] :=
  delta_no_spurious_ops [("a/b#1", itemBug)] [("a/b#1", taskBug)] []
    (by decide) (by decide) (by decide)

/-- C3: Tag-changed case — for a key present in both maps, `Delta` emits,
for that key, exactly `Remove(currentTask)` followed by `Add(desiredItem)`
when the normalized sorted tag sequences differ, and nothing when they are
equal. -/
theorem delta_tag_changed {D C : Type} [Keyed D] [Keyed C]
    (desired : List (String × D)) (current : List (String × C)) (ig : List String)
    (k : String) (v : D) (c : C)
    (hd : KeysConsistent desired) (hc : KeysConsistent current)
    (hnd : NodupKeys desired) (hnc : NodupKeys current)
    (hv : List.lookup k desired = some v) (hcc : List.lookup k current = some c) :
    opsForKey k (Delta desired current ig) =
      if normDesired v = normCurrent c (toLowerList ig) then []
      else [Operation.remove c, Operation.add v] := by
  rw [opsForKey_delta desired current ig hd hc hnd hnc k, hv, hcc]

/-- C3 witness: desired tag `urgent` against current tag `bug` yields the
Remove-then-Add pair for the shared key. -/
theorem delta_tag_changed_witness :
    opsForKey "a/b#1" (Delta [("a/b#1", itemUrgent)] [("a/b#1", taskOnlyBug)] []) =
      if normDesired itemUrgent = normCurrent taskOnlyBug (toLowerList []) then []
      else [Operation.remove taskOnlyBug, Operation.add itemUrgent] :=
  delta_tag_changed [("a/b#1", itemUrgent)] [("a/b#1", taskOnlyBug)] [] "a/b#1"
    itemUrgent taskOnlyBug (by decide) (by decide) (by decide) (by decide)
    (by decide) (by decide)

/-- C4: Ignore-list correctness and asymmetry — the equivalence check
lower-cases both sides but strips the (case-insensitively matched) ignore
tags only from the current task's tags; hence if the current tags, after
that stripping, are a permutation of the desired tags (both lower-cased),
no operation is emitted for the key.  A tag appearing in the current tags
and the ignore list but not in the desired tags therefore never triggers
operations by itself. -/
theorem delta_ignore_tags {D C : Type} [Keyed D] [Keyed C]
    (desired : List (String × D)) (current : List (String × C)) (ig : List String)
    (k : String) (v : D) (c : C)
    (hd : KeysConsistent desired) (hc : KeysConsistent current)
    (hnd : NodupKeys desired) (hnc : NodupKeys current)
    (hv : List.lookup k desired = some v) (hcc : List.lookup k current = some c)
    (hperm : (((Keyed.GetTags c).map lowerStr).filter
        (fun s => !((toLowerList ig).contains s))).Perm
        ((Keyed.GetTags v).map lowerStr)) :
    opsForKey k (Delta desired current ig) = [] := by
  have heq : normCurrent c (toLowerList ig) = normDesired v := by
    unfold normCurrent normDesired
    exact sortStrings_eq_of_perm hperm
  rw [opsForKey_delta desired current ig hd hc hnd hnc k, hv, hcc]
  dsimp only
  rw [if_pos heq.symm]

/-- C4 witness: the spec's scenario — desired `{bug}`, current
`{bug, assigned}`, ignore list `{assigned}` — emits nothing. -/
theorem delta_ignore_tags_witness :
    opsForKey "a/b#1"
      (Delta [("a/b#1", itemBugOnly)] [("a/b#1", taskBugAssigned)] ["assigned"]) = [] :=
  delta_ignore_tags [("a/b#1", itemBugOnly)] [("a/b#1", taskBugAssigned)] ["assigned"]
    "a/b#1" itemBugOnly taskBugAssigned (by decide) (by decide) (by decide)
    (by decide) (by decide) (by decide) (by decide)

/-- C5: Missing-in-current pass — a key of `desired` absent from `current`
receives exactly one operation, an `Add` of the desired item; with an empty
`current`, the result is exactly one `Add` per desired entry, in order. -/
theorem delta_missing_in_current {D C : Type} [Keyed D] [Keyed C]
    (desired : List (String × D)) (current : List (String × C)) (ig : List String)
    (k : String) (v : D) :
    (KeysConsistent desired → KeysConsistent current → NodupKeys desired →
      NodupKeys current → List.lookup k desired = some v →
      List.lookup k current = none →
      opsForKey k (Delta desired current ig) = [Operation.add v]) ∧
    Delta desired ([] : List (String × C)) ig = desired.map fun p => Operation.add p.2 := by
  constructor
  · intro hd hc hnd hnc hv hcc
    rw [opsForKey_delta desired current ig hd hc hnd hnc k, hv, hcc]
  · unfold Delta
    rw [List.flatMap_nil, List.append_nil]
    rw [show desPass ([] : List (String × C)) (toLowerList ig)
        = (fun p : String × D => [Operation.add p.2]) from funext fun p => rfl]
    exact flatMap_singleton_eq_map desired _

/-- C5 witness: key `a/b#1` is only in `desired`, so it gets exactly one
`Add`. -/
theorem delta_missing_in_current_witness :
    opsForKey "a/b#1" (Delta [("a/b#1", itemBug)] [("a/b#2", taskExtra)] []) =
      [Operation.add itemBug] :=
  (delta_missing_in_current [("a/b#1", itemBug)] [("a/b#2", taskExtra)] []
      "a/b#1" itemBug).1
    (by decide) (by decide) (by decide) (by decide) (by decide) (by decide)

/-- C6: Extra-in-current pass — a key of `current` absent from `desired`
receives exactly one operation, a `Remove` of the current task; with an
empty `desired`, the result is exactly one `Remove` per current entry, in
order. -/
theorem delta_extra_in_current {D C : Type} [Keyed D] [Keyed C]
    (desired : List (String × D)) (current : List (String × C)) (ig : List String)
    (k : String) (c : C) :
    (KeysConsistent desired → KeysConsistent current → NodupKeys desired →
      NodupKeys current → List.lookup k desired = none →
      List.lookup k current = some c →
      opsForKey k (Delta desired current ig) = [Operation.remove c]) ∧
    Delta ([] : List (String × D)) current ig
      = current.map fun p => Operation.remove p.2 := by
  constructor
  · intro hd hc hnd hnc hv hcc
    rw [opsForKey_delta desired current ig hd hc hnd hnc k, hv, hcc]
  · unfold Delta
    rw [List.flatMap_nil, List.nil_append]
    rw [show curPass ([] : List (String × D))
        = (fun p : String × C => [Operation.remove p.2]) from funext fun p => rfl]
    exact flatMap_singleton_eq_map current _

/-- C6 witness: key `a/b#2` is only in `current`, so it gets exactly one
`Remove`. -/
theorem delta_extra_in_current_witness :
    opsForKey "a/b#2" (Delta [("a/b#1", itemBug)] [("a/b#2", taskExtra)] []) =
      [Operation.remove taskExtra] :=
  (delta_extra_in_current [("a/b#1", itemBug)] [("a/b#2", taskExtra)] []
      "a/b#2" taskExtra).1
    (by decide) (by decide) (by decide) (by decide) (by decide) (by decide)

/-- C7: Totality — `Delta` always returns a well-defined operation list (it
has no failure mode), and every returned operation is an `Add` of a desired
entry's item or a `Remove` of a current entry's task; this holds for any
input lists, including empty ones and items with empty tag sets. -/
theorem delta_total {D C : Type} [Keyed D] [Keyed C]
    (desired : List (String × D)) (current : List (String × C)) (ig : List String) :
    ∃ ops : List (Operation D C), Delta desired current ig = ops ∧
      ∀ op ∈ ops, (∃ p ∈ desired, op = Operation.add p.2) ∨
        (∃ q ∈ current, op = Operation.remove q.2) := by
  refine ⟨Delta desired current ig, rfl, ?_⟩
  intro op hop
  unfold Delta at hop
  rcases List.mem_append.mp hop with h | h
  · obtain ⟨p, hp, hin⟩ := List.mem_flatMap.mp h
    unfold desPass at hin
    split at hin
    case h_1 =>
      rcases List.mem_singleton.mp hin with rfl
      exact Or.inl ⟨p, hp, rfl⟩
    case h_2 c hlook =>
      by_cases heq : normDesired p.2 = normCurrent c (toLowerList ig)
      · rw [if_pos heq] at hin
        cases hin
      · rw [if_neg heq] at hin
        rcases List.mem_cons.mp hin with rfl | hin
        · exact Or.inr ⟨(p.1, c), lookup_mem hlook, rfl⟩
        · rcases List.mem_singleton.mp hin with rfl
          exact Or.inl ⟨p, hp, rfl⟩
  · obtain ⟨q, hq, hin⟩ := List.mem_flatMap.mp h
    unfold curPass at hin
    split at hin
    case h_1 => cases hin
    case h_2 =>
      rcases List.mem_singleton.mp hin with rfl
      exact Or.inr ⟨q, hq, rfl⟩

/-- C7 witness: a concrete run returning a defined operation list. -/
theorem delta_total_witness :
    ∃ ops : List (Operation GitHubItem Task),
      Delta [("a/b#1", itemBug)] [("a/b#2", taskExtra)] [] = ops ∧
      ∀ op ∈ ops, (∃ p ∈ [("a/b#1", itemBug)], op = Operation.add p.2) ∨
        (∃ q ∈ [("a/b#2", taskExtra)], op = Operation.remove q.2) :=
  delta_total [("a/b#1", itemBug)] [("a/b#2", taskExtra)] []

/-- C8: Keyed-collection builder — `toSet` yields a mapping with pairwise
distinct keys whose entry for a key is the last input element bearing that
key (later elements overwrite earlier ones, without error); the empty
sequence yields the empty mapping, and a non-empty sequence whose elements
all share one key yields a single-entry mapping. -/
theorem toSet_keyed_builder {α : Type} [Keyed α] (l : List α) :
    NodupKeys (toSet l) ∧
    (∀ k, List.lookup k (toSet l) = (l.filter fun e => Keyed.Key e == k).getLast?) ∧
    toSet ([] : List α) = [] ∧
    (∀ k₀, l ≠ [] → (∀ e ∈ l, Keyed.Key e = k₀) → ∃ e, toSet l = [(k₀, e)]) :=
  ⟨toSet_nodup l, fun k => toSet_lookup l k, rfl,
    fun k₀ hne hall => toSet_single_key l k₀ hne hall⟩

/-- C8 witness: two items sharing key `a/b#1` collapse to a single-entry
mapping. -/
theorem toSet_keyed_builder_witness :
    ∃ e, toSet [itemBug, itemDup] = [("a/b#1", e)] :=
  (toSet_keyed_builder [itemBug, itemDup]).2.2.2 "a/b#1" (by decide) (by decide)

end G2O
